import Mathlib

/-!
Verification of the plookup core: a shallow embedding of `src/multiset.rs`
and `src/lookup.rs` over the BLS12-381 scalar field, with theorems settling
the specification claims about `MultiSet` and the `LookUp` driver.

Multisets (`pub struct MultiSet(pub Vec<Fr>)`) are embedded as `List Fr`.
Functions that can panic in Rust (`last()` on an empty vector, `usize`
subtraction underflow, slice indexing out of bounds, a failing `assert!`)
are embedded as `Option`-returning functions, `none` marking the panic.
-/

namespace Plookup

/-- The order of the BLS12-381 scalar field `Fr`
(`algebra::bls12_381::Fr` in the source). -/
def blsR : ℕ :=
  52435875175126190479447740508185965837690552500527637822603658699938581184513

instance : NeZero blsR := ⟨by norm_num [blsR]⟩

/-- The scalar field of BLS12-381. -/
abbrev Fr : Type := ZMod blsR

/-- Rust's `Fr: Ord` compares canonical integer representatives; `Vec::sort`
sorts ascending by this order. -/
instance : LinearOrder Fr := LinearOrder.lift' ZMod.val (ZMod.val_injective blsR)

/-! ### MultiSet operations (`src/multiset.rs`) -/

/-- `MultiSet::new`: the empty multiset. -/
def msNew : List Fr := []

/-- `MultiSet::push`: appends a value at the end. -/
def msPush (s : List Fr) (value : Fr) : List Fr := s ++ [value]

/-- `MultiSet::extend`: appends `n` copies of `value`. -/
def msExtend (s : List Fr) (n : ℕ) (value : Fr) : List Fr :=
  s ++ List.replicate n value

/-- `MultiSet::last`: fetches the last element; the Rust version panics on an
empty multiset (`unwrap` of `Vec::last`), embedded as `none`. -/
def msLast (s : List Fr) : Option Fr := s.getLast?

/-- `MultiSet::len`. -/
def msLen (s : List Fr) : ℕ := s.length

/-- `MultiSet::sort`: ascending stable sort (Rust `Vec::sort`). -/
def msSort (s : List Fr) : List Fr := s.insertionSort (· ≤ ·)

/-- `MultiSet::concatenate`: appends `other` after `self`, no sorting. -/
def msConcat (s other : List Fr) : List Fr := s ++ other

/-- The loop guard `t.0[i] != *element` of `MultiSet::sorted_by`. -/
def msNe (e : Fr) : Fr → Bool := fun x => x ≠ e

/-- `MultiSet::sorted_by`: the source's greedy scan.  A cursor `i` into `t`
starts at 0; for each element of `self` it advances while `t[i]` differs from
the element, fails if it reaches the end, and otherwise stays at the match
(the cursor is *not* advanced past a matched position, so the next element of
`self` may match the same index again). -/
def sortedBy : List Fr → List Fr → Bool
  | [], _ => true
  | e :: s, t =>
    match t.dropWhile (msNe e) with
    | [] => false
    | c :: rest => sortedBy s (c :: rest)

/-- `MultiSet::contains`: linear membership scan. -/
def msContains (s : List Fr) (element : Fr) : Bool := s.contains element

/-- `MultiSet::is_subset_of`: `assert!(other.len() >= self.len())` panics when
`other` is shorter (embedded as `none`); otherwise the loop overwrites a flag
with `other.contains(x)` for each `x` and breaks at the first `false`, which
yields `true` iff every element of `self` occurs in `other`. -/
def isSubsetOf (s other : List Fr) : Option Bool :=
  if other.length ≥ s.length then some (s.all (fun x => msContains other x))
  else none

/-- `MultiSet::halve`: splits into `(s[0..=len/2], s[len/2..])`.  On an empty
multiset the inclusive slice `s[0..=0]` is out of bounds and Rust panics. -/
def halve (s : List Fr) : Option (List Fr × List Fr) :=
  if s.length = 0 then none
  else some (s.take (s.length / 2 + 1), s.drop (s.length / 2))

/-- Elementwise sum, `impl Add for MultiSet`: `zip` truncates to the shorter
operand. -/
def msAdd (a b : List Fr) : List Fr := (a.zip b).map (fun p => p.1 + p.2)

/-- Scalar multiple, `impl Mul<Fr> for MultiSet`: maps `x * other`. -/
def msMulScalar (s : List Fr) (other : Fr) : List Fr := s.map (fun x => x * other)

/-- The loop over the maximum in `MultiSet::aggregate`: the length of the
longest input set. -/
def maxLen (sets : List (List Fr)) : ℕ :=
  sets.foldl (fun m s => if s.length > m then s.length else m) 0

/-- One iteration of the `aggregate` loop: the state is `(result, powers)`;
`intermediate_set = set * powers` (the `&MultiSet` impl maps `powers * x`),
`result = result + intermediate_set`, `powers = powers * challenge`. -/
def aggStep (challenge : Fr) (acc : List Fr × Fr) (s : List Fr) : List Fr × Fr :=
  (msAdd acc.1 (s.map (fun x => acc.2 * x)), acc.2 * challenge)

/-- `MultiSet::aggregate`: starts from a zero vector of the maximal input
length and `powers = 1`, then folds `aggStep` over the sets. -/
def aggregate (sets : List (List Fr)) (challenge : Fr) : List Fr :=
  (sets.foldl (aggStep challenge) (List.replicate (maxLen sets) 0, 1)).1

/-! ### LookUp driver (`src/lookup.rs`) -/

/-- The multiset part of `PreProcessedTable`: the three column multisets
`t_1.0, t_2.0, t_3.0` and the stored size `n`.  (The column commitments of the
Rust struct play no role in the operations modelled here and are omitted.) -/
structure PreProcessedTable where
  t1 : List Fr
  t2 : List Fr
  t3 : List Fr
  n : ℕ

/-- The mutable state of `LookUp<T>`: the three wire multisets.  The table of
type `T: LookUpTable` is passed separately as its `read` function. -/
structure LookUpState where
  leftWires : List Fr
  rightWires : List Fr
  outputWires : List Fr
deriving DecidableEq

/-- A `LookUpTable` is consumed only through `read(key) → Option<Fr>`. -/
def Table : Type := Fr × Fr → Option Fr

/-- `LookUp::new`: all three wires empty. -/
def LookUp.new : LookUpState := ⟨[], [], []⟩

/-- `LookUp::read`: consult the table; on `None` return `false` leaving the
state unchanged, on `Some(output)` push `key.0`, `key.1`, `output` onto the
left, right and output wires and return `true`. -/
def LookUp.read (table : Table) (key : Fr × Fr) (st : LookUpState) :
    Bool × LookUpState :=
  match table key with
  | none => (false, st)
  | some output =>
      (true,
        ⟨msPush st.leftWires key.1, msPush st.rightWires key.2,
          msPush st.outputWires output⟩)

/-- `LookUp::to_multiset`: aggregates the three table columns under `alpha`
and sorts; computes `pad_by = n - 1 - left_wires.len()` (a `usize` subtraction
that panics on underflow), extends each wire by `pad_by` copies of its last
element (`last()` panics on an empty wire), aggregates the wires, and asserts
`merged_witness.len() < merged_table.len()`.  Panics are `none`; on success
the padded state is returned alongside `(merged_witness, merged_table)`. -/
def toMultiset (pp : PreProcessedTable) (alpha : Fr) (st : LookUpState) :
    Option ((List Fr × List Fr) × LookUpState) :=
  let mergedTable := msSort (aggregate [pp.t1, pp.t2, pp.t3] alpha)
  if pp.n < 1 + st.leftWires.length then none
  else
    let padBy := pp.n - 1 - st.leftWires.length
    match msLast st.leftWires, msLast st.rightWires, msLast st.outputWires with
    | some l, some r, some o =>
        let st' : LookUpState :=
          ⟨msExtend st.leftWires padBy l, msExtend st.rightWires padBy r,
            msExtend st.outputWires padBy o⟩
        let mergedWitness :=
          aggregate [st'.leftWires, st'.rightWires, st'.outputWires] alpha
        if mergedWitness.length < mergedTable.length then
          some ((mergedWitness, mergedTable), st')
        else none
    | _, _, _ => none

/-- The `LookUp` states reachable from `LookUp::new` by `read` calls and
non-panicking `to_multiset` calls (which mutate the wires by padding). -/
inductive Reachable (table : Table) : LookUpState → Prop
  | new : Reachable table LookUp.new
  | read (key : Fr × Fr) (st : LookUpState) :
      Reachable table st → Reachable table (LookUp.read table key st).2
  | pad (pp : PreProcessedTable) (alpha : Fr) (st : LookUpState)
      (out : List Fr × List Fr) (st' : LookUpState) :
      Reachable table st → toMultiset pp alpha st = some (out, st') →
      Reachable table st'

/-! ### Spec-side predicates and functions

These follow the specification's words, for comparison with the embedded
code. -/

/-- The spec's componentwise aggregate with zero padding: the `i`-th component
of `s_1 + α·s_2 + … + α^(k-1)·s_k` where a set shorter than `i+1` contributes
zero. -/
def aggSpec (sets : List (List Fr)) (alpha : Fr) (i : ℕ) : Fr :=
  match sets with
  | [] => 0
  | s :: rest => s.getD i 0 + alpha * aggSpec rest alpha i

/-- The claim's strict-subsequence predicate: strictly increasing indices
`i_1 < i_2 < … < i_m` in `t` with `t[i_j] = s[j]`. -/
abbrev StrictSubseq (s t : List Fr) : Prop :=
  ∃ ix : Fin s.length → Fin t.length,
    (∀ j k : Fin s.length, j < k → ix j < ix k) ∧
    ∀ j : Fin s.length, t.get (ix j) = s.get j

/-- The weak variant actually implemented by `sorted_by`: weakly increasing
indices `i_1 ≤ i_2 ≤ … ≤ i_m` in `t` with `t[i_j] = s[j]` (an index may be
reused by consecutive equal elements of `s`). -/
abbrev WeakSubseq (s t : List Fr) : Prop :=
  ∃ ix : Fin s.length → Fin t.length,
    (∀ j k : Fin s.length, j ≤ k → ix j ≤ ix k) ∧
    ∀ j : Fin s.length, t.get (ix j) = s.get j

/-! ### Helper lemmas about `aggregate` -/

lemma length_msAdd (a b : List Fr) : (msAdd a b).length = min a.length b.length := by
  simp [msAdd]

lemma msAdd_getD (a : List Fr) :
    ∀ (b : List Fr) (i : ℕ), i < a.length → i < b.length →
      (msAdd a b).getD i 0 = a.getD i 0 + b.getD i 0 := by
  induction a with
  | nil => intro b i ha _; cases ha
  | cons x a ih =>
      intro b i ha hb
      cases b with
      | nil => cases hb
      | cons y b =>
          cases i with
          | zero => simp [msAdd]
          | succ i =>
              simp only [msAdd, List.zip_cons_cons, List.map_cons, List.getD_cons_succ]
              exact ih b i (by simpa using ha) (by simpa using hb)

lemma map_mul_getD (c : Fr) (s : List Fr) :
    ∀ i : ℕ, i < s.length →
      (s.map (fun x => c * x)).getD i 0 = c * s.getD i 0 := by
  induction s with
  | nil => intro i h; cases h
  | cons x s ih =>
      intro i h
      cases i with
      | zero => simp
      | succ i =>
          simp only [List.map_cons, List.getD_cons_succ]
          exact ih i (by simpa using h)

lemma replicate_getD (m i : ℕ) : (List.replicate m (0 : Fr)).getD i 0 = 0 := by
  induction m generalizing i with
  | zero => simp
  | succ m ih =>
      cases i with
      | zero => simp [List.replicate]
      | succ i => simp [List.replicate, ih i]

lemma aggFold_length (challenge : Fr) :
    ∀ (sets : List (List Fr)) (acc : List Fr) (pow : Fr),
      ((sets.foldl (aggStep challenge) (acc, pow)).1).length =
        sets.foldl (fun m s => min m s.length) acc.length := by
  intro sets
  induction sets with
  | nil => intro acc pow; rfl
  | cons s rest ih =>
      intro acc pow
      simp only [List.foldl_cons, aggStep]
      rw [ih]
      congr 1
      simp [length_msAdd]

lemma foldl_min_le (sets : List (List Fr)) :
    ∀ a : ℕ, sets.foldl (fun m s => min m s.length) a ≤ a := by
  induction sets with
  | nil => intro a; exact le_refl a
  | cons s rest ih =>
      intro a
      exact le_trans (ih (min a s.length)) (min_le_left _ _)

lemma foldl_min_const (n : ℕ) :
    ∀ sets : List (List Fr), (∀ s ∈ sets, s.length = n) →
      sets.foldl (fun m s => min m s.length) n = n := by
  intro sets
  induction sets with
  | nil => intro _; rfl
  | cons s rest ih =>
      intro h
      have hs : s.length = n := h s (by simp)
      simp only [List.foldl_cons, hs, min_self]
      exact ih (fun x hx => h x (by simp [hx]))

lemma maxLen_const (n : ℕ) :
    ∀ sets : List (List Fr), sets ≠ [] → (∀ s ∈ sets, s.length = n) →
      maxLen sets = n := by
  have aux : ∀ sets : List (List Fr), (∀ s ∈ sets, s.length = n) →
      sets.foldl (fun m s => if s.length > m then s.length else m) n = n := by
    intro sets
    induction sets with
    | nil => intro _; rfl
    | cons s rest ih =>
        intro h
        have hs : s.length = n := h s (by simp)
        have hstep : (if s.length > n then s.length else n) = n := by
          rw [hs]; simp
        simp only [List.foldl_cons, hstep]
        exact ih (fun x hx => h x (by simp [hx]))
  intro sets hne h
  cases sets with
  | nil => exact absurd rfl hne
  | cons s rest =>
      have hs : s.length = n := h s (by simp)
      have hstep : (if s.length > 0 then s.length else 0) = n := by
        rw [hs]; split <;> omega
      unfold maxLen
      simp only [List.foldl_cons, hstep]
      exact aux rest (fun x hx => h x (by simp [hx]))

lemma aggFold_getD (challenge : Fr) :
    ∀ (sets : List (List Fr)) (acc : List Fr) (pow : Fr) (i : ℕ),
      i < ((sets.foldl (aggStep challenge) (acc, pow)).1).length →
      ((sets.foldl (aggStep challenge) (acc, pow)).1).getD i 0 =
        acc.getD i 0 + pow * aggSpec sets challenge i := by
  intro sets
  induction sets with
  | nil =>
      intro acc pow i _
      simp [aggSpec]
  | cons s rest ih =>
      intro acc pow i hi
      simp only [List.foldl_cons, aggStep] at hi ⊢
      have hlen : ((rest.foldl (aggStep challenge)
          (msAdd acc (s.map (fun x => pow * x)), pow * challenge)).1).length ≤
          min acc.length s.length := by
        have h1 := aggFold_length challenge rest
          (msAdd acc (s.map (fun x => pow * x))) (pow * challenge)
        have h2 := foldl_min_le rest (msAdd acc (s.map (fun x => pow * x))).length
        calc ((rest.foldl (aggStep challenge)
                (msAdd acc (s.map (fun x => pow * x)), pow * challenge)).1).length
            ≤ (msAdd acc (s.map (fun x => pow * x))).length := by rw [h1]; exact h2
          _ = min acc.length s.length := by simp [length_msAdd]
      have hia : i < acc.length := by
        have := lt_of_lt_of_le hi hlen; omega
      have his : i < s.length := by
        have := lt_of_lt_of_le hi hlen; omega
      rw [ih (msAdd acc (s.map (fun x => pow * x))) (pow * challenge) i hi]
      rw [msAdd_getD acc (s.map (fun x => pow * x)) i hia (by simpa using his),
        map_mul_getD pow s i his]
      simp only [aggSpec]
      ring

lemma aggregate_length_all_eq (sets : List (List Fr)) (alpha : Fr) (n : ℕ)
    (hne : sets ≠ []) (hlen : ∀ s ∈ sets, s.length = n) :
    (aggregate sets alpha).length = n := by
  unfold aggregate
  rw [aggFold_length, List.length_replicate, maxLen_const n sets hne hlen]
  exact foldl_min_const n sets hlen

lemma aggregate_getD_all_eq (sets : List (List Fr)) (alpha : Fr) (n : ℕ)
    (hne : sets ≠ []) (hlen : ∀ s ∈ sets, s.length = n) (i : ℕ) (hi : i < n) :
    (aggregate sets alpha).getD i 0 = aggSpec sets alpha i := by
  have hful : (aggregate sets alpha).length = n :=
    aggregate_length_all_eq sets alpha n hne hlen
  unfold aggregate at hful ⊢
  rw [aggFold_getD alpha sets (List.replicate (maxLen sets) 0) 1 i (by rw [hful]; exact hi)]
  rw [replicate_getD]
  ring

lemma map_one_mul (l : List Fr) : l.map (fun x => (1 : Fr) * x) = l := by
  simp

lemma msAdd_replicate_zero (l : List Fr) :
    ∀ m : ℕ, l.length ≤ m → msAdd (List.replicate m (0 : Fr)) l = l := by
  induction l with
  | nil => intro m _; simp [msAdd]
  | cons x l ih =>
      intro m hm
      cases m with
      | zero => simp at hm
      | succ m =>
          simp only [List.replicate, msAdd, List.zip_cons_cons, List.map_cons, zero_add]
          have := ih m (by simpa using hm)
          simp only [msAdd] at this
          rw [this]

lemma maxLen_singleton (s : List Fr) : maxLen [s] = s.length := by
  unfold maxLen
  simp only [List.foldl_cons, List.foldl_nil]
  split <;> omega

lemma maxLen_pair (a b : List Fr) : maxLen [a, b] = max a.length b.length := by
  unfold maxLen
  simp only [List.foldl_cons, List.foldl_nil]
  split <;> split <;> omega

/-! ### Claims C1 and C8: `MultiSet::aggregate` -/

/-- **C1** (amended).  When every input set has the same length `n`,
`MultiSet::aggregate(sets, α)` returns the componentwise sum
`s_1 + α·s_2 + … + α^(k-1)·s_k` of length `n`.  (For inputs of unequal
lengths the result is truncated to the shortest input, not zero-padded to the
longest — see the counterexample.) -/
theorem aggregate_componentwise (sets : List (List Fr)) (alpha : Fr) (n : ℕ)
    (hne : sets ≠ []) (hlen : ∀ s ∈ sets, s.length = n) :
    (aggregate sets alpha).length = n ∧
    ∀ i, i < n → (aggregate sets alpha).getD i 0 = aggSpec sets alpha i :=
  ⟨aggregate_length_all_eq sets alpha n hne hlen,
   fun i hi => aggregate_getD_all_eq sets alpha n hne hlen i hi⟩

/-- **C1** witness: two singleton sets, componentwise sum of length 1. -/
theorem aggregate_componentwise_witness :
    (aggregate [[(0 : Fr)], [1]] 1).length = 1 ∧
    (aggregate [[(0 : Fr)], [1]] 1).getD 0 0 = aggSpec [[(0 : Fr)], [1]] 1 0 :=
  ⟨(aggregate_componentwise [[(0 : Fr)], [1]] 1 1 (by decide) (by decide)).1,
   (aggregate_componentwise [[(0 : Fr)], [1]] 1 1 (by decide) (by decide)).2 0
     (by decide)⟩

/-- **C1** counterexample: for `sets = [[1], [2, 3]]` and `α = 1` the claim
predicts the zero-padded sum `[3, 3]` of length `max|s_i| = 2`, but `Add`
truncates to the shorter operand and the code returns `[3]` of length 1. -/
theorem aggregate_truncates_counterexample :
    aggregate [[(1 : Fr)], [2, 3]] 1 = [3] ∧
    (aggregate [[(1 : Fr)], [2, 3]] 1).length ≠ 2 := by decide

/-- **C8**.  `aggregate([s], 1) = s`, and `aggregate([a, b], α) = a + α·b`
with the `MultiSet` elementwise sum and scalar multiple. -/
theorem aggregate_laws :
    (∀ s : List Fr, aggregate [s] 1 = s) ∧
    (∀ (a b : List Fr) (alpha : Fr),
      aggregate [a, b] alpha = msAdd a (msMulScalar b alpha)) := by
  constructor
  · intro s
    unfold aggregate
    simp only [List.foldl_cons, List.foldl_nil, aggStep, maxLen_singleton,
      one_mul, List.map_id']
    exact msAdd_replicate_zero s s.length (le_refl _)
  · intro a b alpha
    unfold aggregate
    simp only [List.foldl_cons, List.foldl_nil, aggStep, maxLen_pair,
      one_mul, List.map_id']
    rw [msAdd_replicate_zero a (max a.length b.length) (le_max_left _ _)]
    unfold msMulScalar
    congr 1
    simp [mul_comm]

/-! ### Helper lemmas about `sorted_by` -/

lemma sortedBy_nil_left (t : List Fr) : sortedBy [] t = true := rfl

lemma sortedBy_cons (e : Fr) (s t : List Fr) :
    sortedBy (e :: s) t =
      match t.dropWhile (msNe e) with
      | [] => false
      | c :: rest => sortedBy s (c :: rest) := rfl

lemma msNe_self (e : Fr) : msNe e e = false := by simp [msNe]

lemma msNe_eq_false {e x : Fr} (h : msNe e x = false) : x = e := by
  simpa [msNe] using h

lemma msNe_eq_true {e x : Fr} (h : msNe e x = true) : x ≠ e := by
  simpa [msNe] using h

lemma dropWhile_eq_cons_head {p : Fr → Bool} :
    ∀ {t : List Fr} {c : Fr} {rest : List Fr}, t.dropWhile p = c :: rest → p c = false := by
  intro t
  induction t with
  | nil => intro c rest h; simp [List.dropWhile] at h
  | cons x t ih =>
      intro c rest h
      rw [List.dropWhile_cons] at h
      split at h
      · exact ih h
      · cases h
        rename_i hx
        simpa using hx

lemma getElem?_append_right_nat (l₁ l₂ : List Fr) (i : ℕ) :
    (l₁ ++ l₂)[l₁.length + i]? = l₂[i]? := by
  rw [List.getElem?_append_right (by omega)]
  congr 1
  omega

lemma get_eq_iff_getElem? (l : List Fr) (j : Fin l.length) (x : Fr) :
    l.get j = x ↔ l[(j : ℕ)]? = some x := by
  rw [List.get_eq_getElem, List.getElem?_eq_getElem j.isLt]
  exact ⟨fun h => by rw [h], fun h => by injection h⟩

/-- Soundness of the greedy scan: a successful `sorted_by` run yields weakly
increasing indices. -/
lemma sortedBy_imp_weakSubseq : ∀ s t : List Fr, sortedBy s t = true → WeakSubseq s t := by
  intro s
  induction s with
  | nil =>
      intro t _
      exact ⟨fun j => j.elim0, fun j => j.elim0, fun j => j.elim0⟩
  | cons e s ih =>
      intro t h
      rw [sortedBy_cons] at h
      cases hd : t.dropWhile (msNe e) with
      | nil => rw [hd] at h; simp at h
      | cons c rest =>
          rw [hd] at h
          have hce : c = e := msNe_eq_false (dropWhile_eq_cons_head hd)
          subst hce
          have hsplit : t.takeWhile (msNe c) ++ c :: rest = t := by
            rw [← hd]; exact List.takeWhile_append_dropWhile _ _
          have htlen : t.length = (t.takeWhile (msNe c)).length + (rest.length + 1) := by
            have hh := congrArg List.length hsplit
            simp only [List.length_append, List.length_cons] at hh
            omega
          obtain ⟨ix, hmono, hget⟩ := ih (c :: rest) h
          have hdlt : (t.takeWhile (msNe c)).length < t.length := by omega
          have hblt : ∀ j' : Fin s.length,
              (t.takeWhile (msNe c)).length + (ix j').val < t.length := by
            intro j'
            have := (ix j').isLt
            simp only [List.length_cons] at this
            omega
          refine ⟨fun j => Fin.cases ⟨(t.takeWhile (msNe c)).length, hdlt⟩
            (fun j' => ⟨(t.takeWhile (msNe c)).length + (ix j').val, hblt j'⟩) j,
            ?_, ?_⟩
          · intro j k hjk
            induction j using Fin.cases with
            | zero =>
                induction k using Fin.cases with
                | zero => exact le_refl _
                | succ k' =>
                    simp only [Fin.cases_zero, Fin.cases_succ, Fin.mk_le_mk]
                    omega
            | succ j' =>
                induction k using Fin.cases with
                | zero =>
                    rw [Fin.le_def] at hjk
                    simp only [Fin.val_succ, Fin.val_zero] at hjk
                    omega
                | succ k' =>
                    have hjk' : j' ≤ k' := by
                      rw [Fin.le_def] at hjk ⊢
                      simp only [Fin.val_succ] at hjk
                      omega
                    have hm := hmono j' k' hjk'
                    rw [Fin.le_def] at hm
                    simp only [Fin.cases_succ, Fin.mk_le_mk]
                    omega
          · intro j
            induction j using Fin.cases with
            | zero =>
                simp only [Fin.cases_zero]
                rw [get_eq_iff_getElem?]
                have hq := getElem?_append_right_nat (t.takeWhile (msNe c)) (c :: rest) 0
                rw [hsplit] at hq
                simpa using hq
            | succ j' =>
                simp only [Fin.cases_succ]
                rw [get_eq_iff_getElem?]
                have hq := getElem?_append_right_nat (t.takeWhile (msNe c))
                  (c :: rest) (ix j').val
                rw [hsplit] at hq
                rw [hq]
                have hg := hget j'
                rw [get_eq_iff_getElem?] at hg
                simpa using hg

/-- Completeness of the greedy scan: any weakly increasing index assignment
means the greedy `sorted_by` scan succeeds. -/
lemma weakSubseq_imp_sortedBy : ∀ s t : List Fr, WeakSubseq s t → sortedBy s t = true := by
  intro s
  induction s with
  | nil => intro t _; rfl
  | cons e s ih =>
      intro t hw
      obtain ⟨ix, hmono, hget⟩ := hw
      have hget0 : t.get (ix ⟨0, by simp⟩) = e := by
        have := hget ⟨0, by simp⟩
        simpa using this
      have hmem : e ∈ t := by rw [← hget0]; exact t.get_mem _ _
      have hne : t.dropWhile (msNe e) ≠ [] := by
        intro heq
        rw [List.dropWhile_eq_nil_iff] at heq
        have := heq e hmem
        rw [msNe_self] at this
        cases this
      cases hd : t.dropWhile (msNe e) with
      | nil => exact absurd hd hne
      | cons c rest =>
          have hce : c = e := msNe_eq_false (dropWhile_eq_cons_head hd)
          subst hce
          rw [sortedBy_cons, hd]
          apply ih
          have hsplit : t.takeWhile (msNe c) ++ c :: rest = t := by
            rw [← hd]; exact List.takeWhile_append_dropWhile _ _
          have htlen : t.length = (t.takeWhile (msNe c)).length + (rest.length + 1) := by
            have hh := congrArg List.length hsplit
            simp only [List.length_append, List.length_cons] at hh
            omega
          -- every index used lies at or after the match position
          have hge : ∀ j : Fin (c :: s).length,
              (t.takeWhile (msNe c)).length ≤ (ix j).val := by
            intro j
            have h0j : (ix ⟨0, by simp⟩).val ≤ (ix j).val := by
              have := hmono ⟨0, by simp⟩ j (by rw [Fin.le_def]; simp)
              rwa [Fin.le_def] at this
            by_contra hlt
            push_neg at hlt
            have hlt0 : (ix ⟨0, by simp⟩).val < (t.takeWhile (msNe c)).length := by omega
            -- then t.get (ix 0) lies in the takeWhile prefix, so msNe c holds of it
            have hsome : t[(ix ⟨0, by simp⟩).val]? = some c := by
              have hh := hget0
              rw [get_eq_iff_getElem?] at hh
              exact hh
            have hq : (t.takeWhile (msNe c) ++ c :: rest)[(ix ⟨0, by simp⟩).val]? =
                (t.takeWhile (msNe c))[(ix ⟨0, by simp⟩).val]? :=
              List.getElem?_append_left hlt0
            rw [hsplit] at hq
            rw [hq] at hsome
            have hmemtw : c ∈ t.takeWhile (msNe c) := List.getElem?_mem hsome
            have := List.mem_takeWhile_imp hmemtw
            rw [msNe_self] at this
            cases this
          refine ⟨fun j => ⟨(ix j.succ).val - (t.takeWhile (msNe c)).length, ?_⟩, ?_, ?_⟩
          · have h1 := (ix j.succ).isLt
            have h2 := hge j.succ
            simp only [List.length_cons]
            omega
          · intro j k hjk
            have hjk' : j.succ ≤ k.succ := by
              rw [Fin.le_def] at hjk ⊢
              simp only [Fin.val_succ]
              omega
            have := hmono j.succ k.succ hjk'
            rw [Fin.le_def] at this
            rw [Fin.mk_le_mk]
            omega
          · intro j
            rw [get_eq_iff_getElem?]
            have h2 := hge j.succ
            have hq := getElem?_append_right_nat (t.takeWhile (msNe c)) (c :: rest)
              ((ix j.succ).val - (t.takeWhile (msNe c)).length)
            rw [hsplit] at hq
            have harith : (t.takeWhile (msNe c)).length +
                ((ix j.succ).val - (t.takeWhile (msNe c)).length) = (ix j.succ).val := by
              omega
            rw [harith] at hq
            have hg := hget j.succ
            rw [get_eq_iff_getElem?] at hg
            rw [hq] at hg
            simpa using hg

/-! ### Claim C2: `MultiSet::sorted_by` -/

/-- **C2** (amended).  `sorted_by(t)` returns true iff there exist *weakly*
increasing indices `i_1 ≤ i_2 ≤ … ≤ i_m` in `t` with `t[i_j] = self[j]`
(consecutive equal elements of `self` may reuse the same index of `t`); the
empty multiset is sorted-by every `t`. -/
theorem sortedBy_iff_weakSubseq :
    (∀ s t : List Fr, sortedBy s t = true ↔ WeakSubseq s t) ∧
    (∀ t : List Fr, sortedBy [] t = true) :=
  ⟨fun s t => ⟨sortedBy_imp_weakSubseq s t, weakSubseq_imp_sortedBy s t⟩,
   fun t => sortedBy_nil_left t⟩

/-- **C2** counterexample: `sorted_by` accepts `self = [1, 2, 2]` against
`t = [1, 2, 3]` (the index of the single `2` is reused), yet no *strictly*
increasing indices exist, refuting the claim's characterization. -/
theorem sortedBy_not_strict_counterexample :
    sortedBy [(1 : Fr), 2, 2] [1, 2, 3] = true ∧
    ¬ StrictSubseq [(1 : Fr), 2, 2] [1, 2, 3] := by decide

/-! ### Helper lemmas for C6: sorted inputs -/

/-- The position of the first occurrence of `a`. -/
def firstIdx (a : Fr) : List Fr → ℕ
  | [] => 0
  | b :: t => if b = a then 0 else firstIdx a t + 1

lemma firstIdx_lt_length {a : Fr} :
    ∀ {t : List Fr}, a ∈ t → firstIdx a t < t.length := by
  intro t
  induction t with
  | nil => intro h; cases h
  | cons b t ih =>
      intro h
      unfold firstIdx
      split
      · simp
      · rename_i hba
        have : a ∈ t := by
          cases List.mem_cons.mp h with
          | inl h1 => exact absurd h1.symm hba
          | inr h2 => exact h2
        simpa using ih this

lemma firstIdx_getElem? {a : Fr} :
    ∀ {t : List Fr}, a ∈ t → t[firstIdx a t]? = some a := by
  intro t
  induction t with
  | nil => intro h; cases h
  | cons b t ih =>
      intro h
      unfold firstIdx
      split
      · rename_i hba
        simpa using hba
      · rename_i hba
        have : a ∈ t := by
          cases List.mem_cons.mp h with
          | inl h1 => exact absurd h1.symm hba
          | inr h2 => exact h2
        simpa using ih this

lemma sorted_getElem?_le {t : List Fr} (ht : t.Sorted (· ≤ ·)) {i j : ℕ} {x y : Fr}
    (hij : i ≤ j) (hx : t[i]? = some x) (hy : t[j]? = some y) : x ≤ y := by
  have hjlt : j < t.length := by
    by_contra hge
    rw [List.getElem?_eq_none (by omega)] at hy
    cases hy
  have hilt : i < t.length := by omega
  rw [List.getElem?_eq_getElem hilt] at hx
  rw [List.getElem?_eq_getElem hjlt] at hy
  rcases Nat.lt_or_ge i j with hlt | hge
  · have := List.pairwise_iff_get.mp ht ⟨i, hilt⟩ ⟨j, hjlt⟩ hlt
    simp only [List.get_eq_getElem] at this
    injection hx with hx
    injection hy with hy
    rw [hx, hy] at this
    exact this
  · have hij' : i = j := by omega
    subst hij'
    injection hx with hx
    injection hy with hy
    rw [← hx, ← hy]

lemma firstIdx_mono {t : List Fr} (ht : t.Sorted (· ≤ ·)) {a b : Fr}
    (ha : a ∈ t) (hb : b ∈ t) (hab : a ≤ b) : firstIdx a t ≤ firstIdx b t := by
  by_contra hgt
  push_neg at hgt
  have hga := firstIdx_getElem? ha
  have hgb := firstIdx_getElem? hb
  have : b ≤ a := sorted_getElem?_le ht (le_of_lt hgt) hgb hga
  have hba : a = b := le_antisymm hab this
  subst hba
  exact absurd rfl (ne_of_lt hgt)

/-- Two sorted lists whose first is element-wise contained in the second admit
a weakly increasing index assignment. -/
lemma sorted_mem_imp_weakSubseq (s t : List Fr) (hs : s.Sorted (· ≤ ·))
    (ht : t.Sorted (· ≤ ·)) (hsub : ∀ x ∈ s, x ∈ t) : WeakSubseq s t := by
  have hmem : ∀ j : Fin s.length, s.get j ∈ t := fun j => hsub _ (s.get_mem _ _)
  refine ⟨fun j => ⟨firstIdx (s.get j) t, firstIdx_lt_length (hmem j)⟩, ?_, ?_⟩
  · intro j k hjk
    rw [Fin.mk_le_mk]
    have hsjk : s.get j ≤ s.get k := by
      rcases Nat.lt_or_ge j.val k.val with hlt | hge
      · have := List.pairwise_iff_get.mp hs j k hlt
        exact this
      · have : j = k := by
          rw [Fin.le_def] at hjk
          exact Fin.ext (by omega)
        rw [this]
    exact firstIdx_mono ht (hmem j) (hmem k) hsjk
  · intro j
    rw [get_eq_iff_getElem?]
    exact firstIdx_getElem? (hmem j)

lemma msSort_sorted (l : List Fr) : (msSort l).Sorted (· ≤ ·) :=
  List.sorted_insertionSort (· ≤ ·) l

/-! ### Claim C6: `sorted_by` on `sort(f ∥ t)` -/

/-- **C6** (amended).  If `t` is sorted ascending and every element of
`s = sort(f ∥ t)` appears at least once in `t`, then `s.sorted_by(t)` returns
true.  (Without the sortedness of `t` the claim fails — see the
counterexample.) -/
theorem sortedBy_sort_concat (f t : List Fr) (ht : t.Sorted (· ≤ ·))
    (hsub : ∀ x ∈ msSort (msConcat f t), x ∈ t) :
    sortedBy (msSort (msConcat f t)) t = true :=
  weakSubseq_imp_sortedBy _ _
    (sorted_mem_imp_weakSubseq _ _ (msSort_sorted (msConcat f t)) ht hsub)

/-- **C6** witness: `f = []`, `t = [1, 2]`. -/
theorem sortedBy_sort_concat_witness :
    sortedBy (msSort (msConcat [] [1, 2])) [(1 : Fr), 2] = true :=
  sortedBy_sort_concat [] [1, 2] (by decide)
    (by
      intro x hx
      rw [show msSort (msConcat [] [1, 2]) = [(1 : Fr), 2] from by decide] at hx
      exact hx)

/-- **C6** counterexample: with `f = []` and the unsorted `t = [2, 1]` every
element of `s = sort(f ∥ t) = [1, 2]` appears in `t`, yet `sorted_by`
returns false, refuting the claim as stated. -/
theorem sortedBy_sort_concat_counterexample :
    (∀ x ∈ msSort (msConcat [] [2, 1]), x ∈ [(2 : Fr), 1]) ∧
    sortedBy (msSort (msConcat [] [2, 1])) [(2 : Fr), 1] = false := by
  constructor
  · intro x hx
    rw [show msSort (msConcat [] [2, 1]) = [(1 : Fr), 2] from by decide] at hx
    simp only [List.mem_cons, List.not_mem_nil, or_false] at hx ⊢
    rcases hx with rfl | rfl
    · simp
    · simp
  · decide

/-! ### Claim C3: proving with an empty reads set -/

/-- **C3** (amended).  With all three wires empty, `to_multiset` always
panics: for `n = 0` the `usize` computation `n - 1` underflows, and for
`n ≥ 1` the call `left_wires.last()` unwraps `None`.  Proving with an empty
reads set is therefore *not* permitted. -/
theorem toMultiset_empty_reads_none (pp : PreProcessedTable) (alpha : Fr) :
    toMultiset pp alpha LookUp.new = none := by
  unfold toMultiset LookUp.new
  split
  · rfl
  · rfl

/-- **C3** counterexample: a concrete table of size `n = 2 ≥ 1` with empty
wires, on which the claim predicts success but `to_multiset` panics
(`last()` on the empty left wire). -/
theorem toMultiset_empty_reads_counterexample :
    toMultiset ⟨[0, 0], [0, 0], [0, 0], 2⟩ 0 LookUp.new = none := rfl

/-! ### Claim C4: `LookUp::read` -/

/-- **C4**.  A failed table lookup leaves the state unchanged and returns
`false`; a successful one returns `true` and appends exactly `k_L`, `k_R`
and the looked-up value to the left, right and output wires. -/
theorem read_spec (table : Table) (key : Fr × Fr) (st : LookUpState) :
    (table key = none → LookUp.read table key st = (false, st)) ∧
    (∀ v, table key = some v →
      LookUp.read table key st =
        (true, ⟨msPush st.leftWires key.1, msPush st.rightWires key.2,
          msPush st.outputWires v⟩)) := by
  constructor
  · intro h
    simp [LookUp.read, h]
  · intro v h
    simp [LookUp.read, h]

/-- **C4** witness: a one-entry table, one missing and one present key. -/
theorem read_spec_witness :
    LookUp.read (fun k => if k = ((0 : Fr), (0 : Fr)) then some 1 else none)
      (1, 1) LookUp.new = (false, LookUp.new) ∧
    LookUp.read (fun k => if k = ((0 : Fr), (0 : Fr)) then some 1 else none)
      (0, 0) LookUp.new = (true, ⟨[0], [0], [1]⟩) :=
  ⟨(read_spec (fun k => if k = ((0 : Fr), (0 : Fr)) then some 1 else none)
      (1, 1) LookUp.new).1 (by decide),
   (read_spec (fun k => if k = ((0 : Fr), (0 : Fr)) then some 1 else none)
      (0, 0) LookUp.new).2 1 (by decide)⟩

/-! ### Claim C7: `MultiSet::halve` -/

/-- **C7**.  On a multiset of odd length `2n + 1`, `halve` returns
`(s[0..=n], s[n..2n+1])`; both halves have length `n + 1` and share the
element `s[n]` as last element of the first half and first element of the
second. -/
theorem halve_spec (s : List Fr) (n : ℕ) (h : s.length = 2 * n + 1) :
    halve s = some (s.take (n + 1), s.drop n) ∧
    (s.take (n + 1)).length = n + 1 ∧ (s.drop n).length = n + 1 ∧
    (s.take (n + 1)).getLast? = s[n]? ∧ (s.drop n).head? = s[n]? := by
  have hdiv : s.length / 2 = n := by omega
  refine ⟨?_, ?_, ?_, ?_, ?_⟩
  · unfold halve
    rw [if_neg (by omega), hdiv]
  · rw [List.length_take]
    omega
  · rw [List.length_drop]
    omega
  · rw [List.getLast?_eq_getElem?, List.length_take]
    have hlen : (min (n + 1) s.length) - 1 = n := by omega
    rw [hlen, List.getElem?_take, if_pos (by omega)]
  · exact List.head?_drop s n

/-- **C7** witness: `s = [0, 1, 2]`, `n = 1`. -/
theorem halve_spec_witness :
    halve [(0 : Fr), 1, 2] = some ([0, 1], [1, 2]) ∧
    ([(0 : Fr), 1].length = 2) ∧ ([(1 : Fr), 2].length = 2) ∧
    ([(0 : Fr), 1].getLast? = some 1) ∧ ([(1 : Fr), 2].head? = some 1) :=
  halve_spec [0, 1, 2] 1 rfl

/-! ### Claim C10: `MultiSet::is_subset_of` -/

/-- **C10**.  `is_subset_of` panics (the `assert!`) exactly when
`|self| > |other|`; under the precondition `|other| ≥ |self|` it never panics
and returns whether every element of `self` occurs at least once in `other`,
ignoring multiplicity. -/
theorem isSubsetOf_spec (s other : List Fr) :
    (other.length < s.length → isSubsetOf s other = none) ∧
    (s.length ≤ other.length →
      isSubsetOf s other = some (decide (∀ x ∈ s, x ∈ other))) := by
  constructor
  · intro h
    unfold isSubsetOf
    rw [if_neg (by omega)]
  · intro h
    unfold isSubsetOf
    rw [if_pos (by omega)]
    apply congrArg
    rcases Decidable.em (∀ x ∈ s, x ∈ other) with hall | hnot
    · rw [decide_eq_true hall, List.all_eq_true]
      intro x hx
      simpa [msContains, List.contains, List.elem_iff] using hall x hx
    · rw [decide_eq_false hnot]
      by_contra htrue
      rw [Bool.not_eq_false, List.all_eq_true] at htrue
      apply hnot
      intro x hx
      simpa [msContains, List.contains, List.elem_iff] using htrue x hx

/-- **C10** witness: the assertion fires on a longer `self`; with the
precondition satisfied the result is the membership test. -/
theorem isSubsetOf_spec_witness :
    isSubsetOf [(0 : Fr), 1] [0] = none ∧
    isSubsetOf [(0 : Fr)] [0, 1] = some true :=
  ⟨(isSubsetOf_spec [0, 1] [0]).1 (by decide),
   by
    have hh := (isSubsetOf_spec [(0 : Fr)] [0, 1]).2 (by decide)
    rw [hh]
    apply congrArg
    rw [decide_eq_true_eq]
    intro x hx
    rw [show x = (0 : Fr) from by simpa using hx]
    exact List.mem_cons_self _ _⟩

/-! ### Claim C5: `to_multiset` on well-formed inputs -/

/-- **C5**.  For a preprocessed table whose three columns have length `n`
(the stored size) and wires of common length `m` with `1 ≤ m ≤ n − 1`,
`to_multiset` succeeds and returns `(f, t)` with `|f| = n − 1` and `|t| = n`,
so the assertion `|f| + 1 = |t|` in `prove` holds. -/
theorem toMultiset_lengths (pp : PreProcessedTable) (alpha : Fr) (st : LookUpState) (m : ℕ)
    (h1 : pp.t1.length = pp.n) (h2 : pp.t2.length = pp.n) (h3 : pp.t3.length = pp.n)
    (hl : st.leftWires.length = m) (hr : st.rightWires.length = m)
    (ho : st.outputWires.length = m) (hm1 : 1 ≤ m) (hm2 : m ≤ pp.n - 1) :
    ∃ f t st', toMultiset pp alpha st = some ((f, t), st') ∧
      f.length = pp.n - 1 ∧ t.length = pp.n ∧ f.length + 1 = t.length := by
  have hn2 : 2 ≤ pp.n := by omega
  have htab : (aggregate [pp.t1, pp.t2, pp.t3] alpha).length = pp.n := by
    apply aggregate_length_all_eq
    · simp
    · intro s hs
      rcases List.mem_cons.mp hs with rfl | hs
      · exact h1
      rcases List.mem_cons.mp hs with rfl | hs
      · exact h2
      rcases List.mem_cons.mp hs with rfl | hs
      · exact h3
      · cases hs
  have hsort : (msSort (aggregate [pp.t1, pp.t2, pp.t3] alpha)).length = pp.n := by
    rw [msSort, List.length_insertionSort]
    exact htab
  obtain ⟨lv, hlv⟩ : ∃ v, msLast st.leftWires = some v := by
    rw [msLast]
    cases hq : st.leftWires.getLast? with
    | none =>
        rw [List.getLast?_eq_none_iff] at hq
        rw [hq] at hl
        simp at hl
        omega
    | some v => exact ⟨v, rfl⟩
  obtain ⟨rv, hrv⟩ : ∃ v, msLast st.rightWires = some v := by
    rw [msLast]
    cases hq : st.rightWires.getLast? with
    | none =>
        rw [List.getLast?_eq_none_iff] at hq
        rw [hq] at hr
        simp at hr
        omega
    | some v => exact ⟨v, rfl⟩
  obtain ⟨ov, hov⟩ : ∃ v, msLast st.outputWires = some v := by
    rw [msLast]
    cases hq : st.outputWires.getLast? with
    | none =>
        rw [List.getLast?_eq_none_iff] at hq
        rw [hq] at ho
        simp at ho
        omega
    | some v => exact ⟨v, rfl⟩
  have hpadL : (msExtend st.leftWires (pp.n - 1 - st.leftWires.length) lv).length =
      pp.n - 1 := by
    rw [msExtend, List.length_append, List.length_replicate, hl]
    omega
  have hpadR : (msExtend st.rightWires (pp.n - 1 - st.leftWires.length) rv).length =
      pp.n - 1 := by
    rw [msExtend, List.length_append, List.length_replicate, hl, hr]
    omega
  have hpadO : (msExtend st.outputWires (pp.n - 1 - st.leftWires.length) ov).length =
      pp.n - 1 := by
    rw [msExtend, List.length_append, List.length_replicate, hl, ho]
    omega
  have hwit : (aggregate [msExtend st.leftWires (pp.n - 1 - st.leftWires.length) lv,
      msExtend st.rightWires (pp.n - 1 - st.leftWires.length) rv,
      msExtend st.outputWires (pp.n - 1 - st.leftWires.length) ov] alpha).length =
      pp.n - 1 := by
    apply aggregate_length_all_eq
    · simp
    · intro s hs
      rcases List.mem_cons.mp hs with rfl | hs
      · exact hpadL
      rcases List.mem_cons.mp hs with rfl | hs
      · exact hpadR
      rcases List.mem_cons.mp hs with rfl | hs
      · exact hpadO
      · cases hs
  refine ⟨_, _, ⟨msExtend st.leftWires (pp.n - 1 - st.leftWires.length) lv,
    msExtend st.rightWires (pp.n - 1 - st.leftWires.length) rv,
    msExtend st.outputWires (pp.n - 1 - st.leftWires.length) ov⟩,
    ?_, hwit, hsort, by omega⟩
  simp only [toMultiset]
  rw [if_neg (by omega), hlv, hrv, hov]
  dsimp only
  rw [if_pos (by rw [hwit, hsort]; omega)]

/-- **C5** witness: a table of size `n = 2` with wires of length `m = 1`. -/
theorem toMultiset_lengths_witness :
    ∃ f t st', toMultiset ⟨[0, 1], [0, 1], [0, 1], 2⟩ 0 ⟨[0], [0], [0]⟩ =
      some ((f, t), st') ∧ f.length = 1 ∧ t.length = 2 ∧ f.length + 1 = t.length :=
  toMultiset_lengths ⟨[0, 1], [0, 1], [0, 1], 2⟩ 0 ⟨[0], [0], [0]⟩ 1
    rfl rfl rfl rfl rfl rfl (by decide) (by decide)

/-! ### Claim C9: the equal-wire-lengths invariant -/

/-- Any successful `to_multiset` call pads the three wires by the same count. -/
lemma toMultiset_state {pp : PreProcessedTable} {alpha : Fr} {st : LookUpState}
    {out : List Fr × List Fr} {st' : LookUpState}
    (h : toMultiset pp alpha st = some (out, st')) :
    ∃ padBy l r o,
      st' = ⟨msExtend st.leftWires padBy l, msExtend st.rightWires padBy r,
        msExtend st.outputWires padBy o⟩ := by
  simp only [toMultiset] at h
  split at h
  · cases h
  · split at h
    · split at h
      · injection h with h
        injection h with hout hst
        exact ⟨_, _, _, _, hst.symm⟩
      · cases h
    · cases h

/-- **C9**.  In every state reachable from `LookUp::new` by `read` calls and
non-panicking `to_multiset` calls, the three wire multisets have equal
lengths. -/
theorem reachable_wire_lengths (table : Table) (st : LookUpState)
    (h : Reachable table st) :
    st.leftWires.length = st.rightWires.length ∧
      st.rightWires.length = st.outputWires.length := by
  induction h with
  | new => exact ⟨rfl, rfl⟩
  | read key st' hst ih =>
      unfold LookUp.read
      cases table key with
      | none => exact ih
      | some v =>
          simp only [msPush, List.length_append, List.length_cons, List.length_nil]
          omega
  | pad pp alpha st' out st'' hst heq ih =>
      obtain ⟨padBy, l, r, o, rfl⟩ := toMultiset_state heq
      simp only [msExtend, List.length_append, List.length_replicate]
      omega

/-- **C9** witness: the initial state is reachable and balanced. -/
theorem reachable_wire_lengths_witness :
    (LookUp.new).leftWires.length = (LookUp.new).rightWires.length ∧
      (LookUp.new).rightWires.length = (LookUp.new).outputWires.length :=
  reachable_wire_lengths (fun _ => none) LookUp.new Reachable.new

end Plookup
